import Mathlib

/-!
# Verification of the Spiritual-chatbot retrieval core

Shallow embedding, in Lean 4, of the core algorithms of the repository:

* `backend/app/services/chunking_service.py` — `ChunkingService`
* `backend/app/services/rag_engine.py` — `RAGEngine._rerank_results`,
  `RAGEngine._assemble_context`
* `backend/app/services/tree_parser.py` — `TreeParser` and `TreeNode`
* `backend/app/services/obsidian_parser.py` — `ObsidianParser._extract_links`,
  `ObsidianParser._generate_id`, `ObsidianParser._slugify`

Python strings are modelled through their character lists (`String.data`);
the Python string helpers used by the code (`str.split()`, `str.strip()`,
`str.lower()`, `' '.join`, slices) are re-implemented below over `List Char`
with the ASCII semantics the repository's data exercises.  Python floats are
modelled as rationals (`ℚ`); the two float-division constants of the chunker
(`x / 1.3` truncated to int) are modelled as `x * 10 / 13` in `Nat`, which
agrees with the float computation on the magnitudes the service uses.
-/

namespace SpiritualChatbot

/-! ## Python string primitives -/

/-- The whitespace characters of Python's `str.split()` / `str.strip()`
(ASCII fragment). -/
def isPySpace (c : Char) : Bool :=
  c = ' ' || c = '\t' || c = '\n' || c = '\r' || c = '\x0b' || c = '\x0c'

/-- Helper for `pyWords`: accumulates the current word (reversed). -/
def pyWordsAux (cur : List Char) : List Char → List (List Char)
  | [] => if cur.isEmpty then [] else [cur.reverse]
  | c :: cs =>
    if isPySpace c then
      if cur.isEmpty then pyWordsAux [] cs else cur.reverse :: pyWordsAux [] cs
    else pyWordsAux (c :: cur) cs

/-- Python `s.split()` with no argument: split on whitespace runs, no empty
pieces. -/
def pyWords (s : String) : List String :=
  (pyWordsAux [] s.data).map (fun w => ⟨w⟩)

/-- Python `len(s.split())`, the word count the chunker and assembler use. -/
def wordCount (s : String) : Nat := (pyWords s).length

/-- Python `s.strip()` on a character list. -/
def pyStripChars (cs : List Char) : List Char :=
  ((cs.dropWhile isPySpace).reverse.dropWhile isPySpace).reverse

/-- Python `s.strip()`. -/
def pyStrip (s : String) : String := ⟨pyStripChars s.data⟩

/-- Python `s.lower()` (ASCII fragment). -/
def toLowerStr (s : String) : String := ⟨s.data.map Char.toLower⟩

/-- Whether `p` is a leading segment of `l` (Python `str.startswith`). -/
def leadsWith : List Char → List Char → Bool
  | [], _ => true
  | _ :: _, [] => false
  | p :: ps, c :: cs => p = c && leadsWith ps cs

/-- Python `pre in s` restricted to `s.startswith(pre)`. -/
def startsWithStr (s pre : String) : Bool := leadsWith pre.data s.data

/-- Python `pat in hay` (substring containment) over character lists. -/
def containsSeq : List Char → List Char → Bool
  | [], pat => pat.isEmpty
  | c :: rest, pat => leadsWith pat (c :: rest) || containsSeq rest pat

/-- Python `pat in hay` on strings. -/
def containsStr (hay pat : String) : Bool := containsSeq hay.data pat.data

/-- Python `'\n'.join` style interleaving on character lists. -/
def intercalateChars (sep : List Char) : List (List Char) → List Char
  | [] => []
  | [x] => x
  | x :: y :: rest => x ++ sep ++ intercalateChars sep (y :: rest)

/-- Python `' '.join(words)`. -/
def joinSpace : List String → String
  | [] => ""
  | [w] => w
  | w :: v :: ws => w ++ " " ++ joinSpace (v :: ws)

/-- Python `content.split('\n')`: split at every newline, keeping empty
pieces. -/
def splitOnNl : List Char → List (List Char)
  | [] => [[]]
  | c :: rest =>
    match splitOnNl rest with
    | [] => [[c]]
    | h :: t => if c = '\n' then [] :: h :: t else (c :: h) :: t

/-- Python `s[:n]` (character slice). -/
def takeStr (n : Nat) (s : String) : String := ⟨s.data.take n⟩

/-! ## Data model (`backend/app/models/note.py`) -/

/-- Model `Note` of `models/note.py` (the `created_at` timestamp, an ingestion-time
wall-clock value never read by the core, is omitted). -/
structure Note where
  id : String
  title : String
  content : String
  category : String
  book : Option String
  file_path : String
  links : List String
  word_count : Nat
deriving DecidableEq, Repr

/-- Model `Chunk` of `models/note.py` (the `embedding` field, populated by the
external embedding service, is omitted). -/
structure Chunk where
  id : String
  note_id : String
  text : String
  chunk_index : Nat
  total_chunks : Nat
  title : String
  category : String
  book : Option String
  file_path : String
  links : List String
deriving DecidableEq, Repr

/-! ## `ChunkingService` (`backend/app/services/chunking_service.py`) -/

/-- Constructor arguments of `ChunkingService.__init__`. -/
structure ChunkingService where
  chunk_size : Nat
  chunk_overlap : Nat
  min_chunk_size : Nat
deriving DecidableEq, Repr

/-- Derived `self.words_per_chunk = int(chunk_size / 1.3)`, i.e. `⌊chunk_size·10/13⌋`. -/
def ChunkingService.wordsPerChunk (s : ChunkingService) : Nat := s.chunk_size * 10 / 13

/-- Derived `self.overlap_words = int(chunk_overlap / 1.3)`. -/
def ChunkingService.overlapWords (s : ChunkingService) : Nat := s.chunk_overlap * 10 / 13

/-- Derived `self.min_words = int(min_chunk_size / 1.3)`. -/
def ChunkingService.minWords (s : ChunkingService) : Nat := s.min_chunk_size * 10 / 13

/-- Test `re.match(r'^#{1,6}\s+.+$', line)` as a Boolean: one to six leading
hash marks, then at least one whitespace character, then at least one further
character. -/
def isHeaderLine (line : String) : Bool :=
  let cs := line.data
  let hashes := cs.takeWhile (fun c => c = '#')
  let rest := cs.dropWhile (fun c => c = '#')
  decide (1 ≤ hashes.length) && decide (hashes.length ≤ 6) &&
    (match rest with
     | [] => false
     | c :: tail => isPySpace c && !tail.isEmpty)

/-- The loop of `_split_by_headers`: `cur` is the current section's lines in
reverse; a section is flushed as `'\n'.join(lines).strip()`. -/
def sbhGo : List (List Char) → List (List Char) → List (List Char)
  | [], cur =>
    if cur.isEmpty then [] else [pyStripChars (intercalateChars ['\n'] cur.reverse)]
  | l :: ls, cur =>
    if isHeaderLine ⟨l⟩ then
      if cur.isEmpty then sbhGo ls [l]
      else pyStripChars (intercalateChars ['\n'] cur.reverse) :: sbhGo ls [l]
    else sbhGo ls (l :: cur)

/-- Embedding of `ChunkingService._split_by_headers`. -/
def splitByHeaders (content : String) : List String :=
  let secs := sbhGo (splitOnNl content.data) []
  if secs.length ≤ 1 then [content] else secs.map (fun cs => ⟨cs⟩)

/-- The loop of `re.split(r'\n\n+', content)`: `nl` counts pending consecutive
newlines, `cur` is the current piece in reverse. -/
def splitParasGo (nl : Nat) (cur : List Char) : List Char → List (List Char)
  | [] =>
    if 2 ≤ nl then [cur.reverse, []]
    else [(List.replicate nl '\n' ++ cur).reverse]
  | c :: rest =>
    if c = '\n' then splitParasGo (nl + 1) cur rest
    else if 2 ≤ nl then cur.reverse :: splitParasGo 0 [c] rest
    else splitParasGo 0 (c :: (List.replicate nl '\n' ++ cur)) rest

/-- Split `re.split(r'\n\n+', content)` of `_split_by_paragraphs`. -/
def splitParas (cs : List Char) : List (List Char) := splitParasGo 0 [] cs

/-- The paragraph-accumulation loop of `_split_by_paragraphs`: remaining
paragraphs, the current group (stripped paragraphs, in reverse) and its word
count. -/
def sbpGo (wpc minw : Nat) : List (List Char) → List (List Char) → Nat → List (List Char)
  | [], cur, _ =>
    if cur.isEmpty then []
    else
      let text := intercalateChars ['\n', '\n'] cur.reverse
      if minw ≤ (pyWordsAux [] text).length then [text] else []
  | p :: ps, cur, cw =>
    let p' := pyStripChars p
    if p'.isEmpty then sbpGo wpc minw ps cur cw
    else
      let pw := (pyWordsAux [] p').length
      if wpc < cw + pw then
        (if cur.isEmpty then [] else [intercalateChars ['\n', '\n'] cur.reverse]) ++
          sbpGo wpc minw ps [p'] pw
      else sbpGo wpc minw ps (p' :: cur) (cw + pw)

/-- Embedding of `ChunkingService._split_by_paragraphs`. -/
def splitByParagraphs (svc : ChunkingService) (content : String) : List String :=
  let chunks := sbpGo svc.wordsPerChunk svc.minWords (splitParas content.data) [] 0
  if chunks.isEmpty then [content] else chunks.map (fun cs => ⟨cs⟩)

/-- Slice `prev_words[-overlap_words:]` — Python's negative slice, where a `-0`
bound means the whole list. -/
def pyLastSlice (ov : Nat) (ws : List String) : List String :=
  if ov = 0 then ws else ws.drop (ws.length - ov)

/-- The body of `_add_overlap`'s loop for index `i > 0`: `prev` is
`chunks[i-1]` (the original previous chunk). -/
def addOverlapGo (ov : Nat) (prev : String) : List String → List String
  | [] => []
  | c :: rest =>
    let pw := pyWords prev
    let c' :=
      if ov < pw.length then joinSpace (pyLastSlice ov pw) ++ " ... " ++ c
      else c
    c' :: addOverlapGo ov c rest

/-- Embedding of `ChunkingService._add_overlap`. -/
def addOverlap (svc : ChunkingService) (chunks : List String) : List String :=
  match chunks with
  | [] => []
  | [c] => [c]
  | c :: d :: rest => c :: addOverlapGo svc.overlapWords c (d :: rest)

/-- Embedding of `ChunkingService._semantic_chunk`. -/
def semanticChunk (svc : ChunkingService) (content : String) : List String :=
  let sections := splitByHeaders content
  let chunks := sections.flatMap (fun sec =>
    let sw := wordCount sec
    if sw ≤ svc.wordsPerChunk then
      if svc.minWords ≤ sw then [sec] else []
    else splitByParagraphs svc sec)
  addOverlap svc chunks

/-- Embedding of `ChunkingService._create_chunk`. -/
def createChunk (note : Note) (text : String) (index total : Nat) : Chunk :=
  { id := note.id ++ "_chunk_" ++ toString index
    note_id := note.id
    text := pyStrip text
    chunk_index := index
    total_chunks := total
    title := note.title
    category := note.category
    book := note.book
    file_path := note.file_path
    links := note.links }

/-- Embedding of `ChunkingService.chunk_note`. -/
def chunkNote (svc : ChunkingService) (note : Note) : List Chunk :=
  let content := pyStrip note.content
  let wc := wordCount content
  if wc ≤ svc.wordsPerChunk then [createChunk note content 0 1]
  else
    let chunksText := semanticChunk svc content
    let total := chunksText.length
    chunksText.enum.map (fun p => createChunk note p.2 p.1 total)

/-! ## Wiki-link extraction

`TreeParser.WIKI_LINK_PATTERN = re.compile(r'\[\[([^\]]+)\]\]')` and
`ObsidianParser._extract_links`'s pattern
`r'\[\[([^\]|]+)(?:\|[^\]]+)?\]\]'`, as left-to-right regex scanners.  Both
are driven by a fuel argument (initially the text length, an upper bound on
the number of scanning steps, each of which moves the start position right by
at least one character). -/

/-- Scanner for `re.findall(r'\[\[([^\]]+)\]\]', content)`: at a `[[`, the
capture is the maximal run of non-`]` characters, which must be non-empty and
be followed by `]]`; on failure the scan restarts one character later. -/
def scanWikiGo : Nat → List Char → List (List Char)
  | 0, _ => []
  | fuel + 1, cs =>
    match cs with
    | '[' :: '[' :: rest =>
      let run := rest.takeWhile (fun c => c ≠ ']')
      (match rest.dropWhile (fun c => c ≠ ']') with
       | ']' :: ']' :: rem => if run.isEmpty then scanWikiGo fuel ('[' :: rest) else run :: scanWikiGo fuel rem
       | _ => scanWikiGo fuel ('[' :: rest))
    | _ :: rest => scanWikiGo fuel rest
    | [] => []

/-- Embedding of `TreeParser.extract_wiki_links`: the raw matches of
`\[\[([^\]]+)\]\]`, each stripped; no pipe handling, no deduplication. -/
def extractWikiLinks (content : String) : List String :=
  (scanWikiGo content.data.length content.data).map (fun cs => ⟨pyStripChars cs⟩)

/-- One step of the scanner for
`re.findall(r'\[\[([^\]|]+)(?:\|[^\]]+)?\]\]', content)`: at a `[[`, the
capture stops at `]` or `|`; an optional `|Display` part (non-empty,
`]`-free) is consumed but not captured; then `]]` must follow; on failure the
scan restarts one character later through `recur`. -/
def scanPipeStep (recur : List Char → List (List Char)) : List Char → List (List Char)
  | '[' :: '[' :: rest =>
    if (rest.takeWhile (fun c => c ≠ ']' && c ≠ '|')).isEmpty then recur ('[' :: rest)
    else
      match rest.dropWhile (fun c => c ≠ ']' && c ≠ '|') with
      | ']' :: ']' :: rem => rest.takeWhile (fun c => c ≠ ']' && c ≠ '|') :: recur rem
      | '|' :: rem1 =>
        if (rem1.takeWhile (fun c => c ≠ ']')).isEmpty then recur ('[' :: rest)
        else
          match rem1.dropWhile (fun c => c ≠ ']') with
          | ']' :: ']' :: rem2 =>
            rest.takeWhile (fun c => c ≠ ']' && c ≠ '|') :: recur rem2
          | _ => recur ('[' :: rest)
      | _ => recur ('[' :: rest)
  | _ :: rest => recur rest
  | [] => []

/-- The fuel-driven scanner for the `_extract_links` pattern. -/
def scanPipeGo : Nat → List Char → List (List Char)
  | 0, _ => []
  | fuel + 1, cs => scanPipeStep (scanPipeGo fuel) cs

/-- The raw (pre-deduplication) matches of `ObsidianParser._extract_links`. -/
def rawLinks (content : String) : List String :=
  (scanPipeGo content.data.length content.data).map (fun cs => (⟨cs⟩ : String))

/-- The `seen`-set deduplication loop shared by `_extract_links` and
`parse_citations`: keeps the first occurrence of each element. -/
def dedupFirstAux (seen : List String) : List String → List String
  | [] => []
  | x :: xs =>
    if x ∈ seen then dedupFirstAux seen xs
    else x :: dedupFirstAux (x :: seen) xs

/-- Embedding of `ObsidianParser._extract_links`. -/
def extractLinks (content : String) : List String :=
  dedupFirstAux [] (rawLinks content)

/-! ## Paths and root detection (`tree_parser.py`, `obsidian_parser.py`) -/

/-- Split a character list at every occurrence of `sep`, keeping empty
pieces. -/
def splitOnChar (sep : Char) : List Char → List (List Char)
  | [] => [[]]
  | c :: rest =>
    match splitOnChar sep rest with
    | [] => [[c]]
    | h :: t => if c = sep then [] :: h :: t else (c :: h) :: t

/-- Python `pathlib.Path(p).name`: the last non-empty slash-separated component. -/
def pathName (p : String) : String :=
  ⟨((splitOnChar '/' p.data).filter (fun l => !l.isEmpty)).getLastD []⟩

/-- Python `pathlib.Path(p).stem`: the name with its final suffix removed; a dot at
position 0 or in final position yields no suffix. -/
def pathStem (p : String) : String :=
  let n := (pathName p).data
  if ('.' : Char) ∈ n then
    let i := n.length - 1 - (n.reverse.findIdx (fun c => c = '.'))
    if 0 < i ∧ i < n.length - 1 then ⟨n.take i⟩ else ⟨n⟩
  else ⟨n⟩

/-- Embedding of `TreeParser.is_root_note`: checks the storage filename against the two
literal prefixes `"Notes - "` and `"notes - "`. -/
def isRootNote (note : Note) : Bool :=
  let filename := pathName note.file_path
  startsWithStr filename "Notes - " || startsWithStr filename "notes - "

/-! ## Identity generation (`ObsidianParser._generate_id`, `_slugify`) -/

/-- Whether `c` is matched by the regex class `[\w]` (ASCII fragment). -/
def isWordChar (c : Char) : Bool := c.isAlpha || c.isDigit || c = '_'

/-- The `re.sub(r'[-\s]+', '-', text)` pass: each maximal run of hyphens and
whitespace becomes a single hyphen (`pending` records an open run). -/
def collapseGo (pending : Bool) : List Char → List Char
  | [] => if pending then ['-'] else []
  | c :: rest =>
    if c = '-' || isPySpace c then collapseGo true rest
    else if pending then '-' :: c :: collapseGo false rest
    else c :: collapseGo false rest

/-- Python `text.strip('-')`. -/
def stripDashes (cs : List Char) : List Char :=
  ((cs.dropWhile (fun c => c = '-')).reverse.dropWhile (fun c => c = '-')).reverse

/-- Embedding of `ObsidianParser._slugify`: lowercase, drop characters outside
`[\w\s-]`, collapse hyphen/whitespace runs to `-`, strip outer hyphens. -/
def slugify (text : String) : String :=
  let lowered := text.data.map Char.toLower
  let cleaned := lowered.filter (fun c => isWordChar c || isPySpace c || c = '-')
  ⟨stripDashes (collapseGo false cleaned)⟩

/-- Python `"_".join(parts)`. -/
def joinUnderscore : List String → String
  | [] => ""
  | [w] => w
  | w :: v :: ws => w ++ "_" ++ joinUnderscore (v :: ws)

/-- The raw slug `"_".join(p for p in parts if p)` of `_generate_id`. -/
def rawSlug (category : String) (book : Option String) (title : String) : String :=
  let parts := [slugify category,
                (match book with | some b => slugify b | none => ""),
                slugify title]
  joinUnderscore (parts.filter (fun p => p ≠ ""))

/-- Embedding of `ObsidianParser._generate_id`, parameterised by the external
`hashlib.md5(...).hexdigest()` function (an opaque collaborator: a pure map
from strings to hex strings). -/
def generateId (md5hex : String → String) (category : String) (book : Option String)
    (title : String) : String :=
  let slug := rawSlug category book title
  if 100 < slug.length then takeStr 80 slug ++ "_" ++ takeStr 8 (md5hex slug)
  else slug

/-! ## RAG engine (`backend/app/services/rag_engine.py`)

Python floats are modelled as `ℚ`.  Results from the vector database arrive
as parallel arrays and are consumed index-by-index; they are modelled as the
list of per-index candidate records. -/

/-- Outcome of `eval(links_str)` on the candidate's stored `links` metadata:
the evaluation yields a Python list, yields a non-list value, or raises. -/
inductive PyLinks where
  | ok (links : List String)
  | notList
  | err
deriving DecidableEq, Repr

/-- Whether `eval` of the metadata succeeded and produced a list. -/
def PyLinks.isOk : PyLinks → Bool
  | .ok _ => true
  | _ => false

/-- The metadata fields `_rerank_results` / `_assemble_context` read from a
stored chunk (each through `dict.get` with a default, hence `Option`). -/
structure ChunkMeta where
  title : Option String
  category : Option String
  book : Option String
  file_path : Option String
  links : PyLinks
deriving DecidableEq, Repr

/-- One candidate from the vector database: the `i`-th entries of
`results['ids'][0]`, `results['documents'][0]`, `results['metadatas'][0]`
and `results['distances'][0]`. -/
structure Candidate where
  id : String
  text : String
  metadata : ChunkMeta
  distance : ℚ
deriving DecidableEq, Repr

/-- A chunk record after `_rerank_results` added `similarity` and
`final_score`. -/
structure RankedChunk where
  id : String
  text : String
  metadata : ChunkMeta
  distance : ℚ
  similarity : ℚ
  final_score : ℚ
deriving DecidableEq, Repr

/-- The keyword-overlap factor of `_rerank_results`:
`len(query_words & text_words) / len(query_words)` over lowercase
whitespace-tokenised word sets, `0` for an empty query. -/
def keywordOverlap (query text : String) : ℚ :=
  let qw := (pyWords (toLowerStr query)).dedup
  let tw := pyWords (toLowerStr text)
  if qw.isEmpty then 0
  else ((qw.filter (fun w => w ∈ tw)).length : ℚ) / (qw.length : ℚ)

/-- The link-density bonus: `min(link_count * 0.01, 0.1)`, with
`link_count = 0` when the stored metadata is not a list and no bonus at all
when `eval` raises. -/
def linkBonus : PyLinks → ℚ
  | .ok ls => min ((ls.length : ℚ) * (1 / 100)) (1 / 10)
  | .notList => min ((0 : ℚ) * (1 / 100)) (1 / 10)
  | .err => 0

/-- The per-candidate scoring of `_rerank_results`:
`similarity * 0.7 + keyword_overlap * 0.2 + min(link_count * 0.01, 0.1)`. -/
def toRanked (query : String) (c : Candidate) : RankedChunk :=
  let similarity := 1 - c.distance
  let score := similarity * (7 / 10) + keywordOverlap query c.text * (2 / 10) +
    linkBonus c.metadata.links
  { id := c.id, text := c.text, metadata := c.metadata, distance := c.distance
    similarity := similarity, final_score := score }

/-- Stable descending insertion: the new element goes after every element
whose score is `≥` its own (the behaviour of Python's stable
`list.sort(key=..., reverse=True)` for elements arriving in input order). -/
def insertDesc (x : RankedChunk) : List RankedChunk → List RankedChunk
  | [] => [x]
  | y :: ys => if y.final_score < x.final_score then x :: y :: ys else y :: insertDesc x ys

/-- Embedding of `ranked.sort(key=lambda x: x['final_score'], reverse=True)` — a stable
descending sort by final score. -/
def stableSortDesc (l : List RankedChunk) : List RankedChunk :=
  l.foldl (fun acc x => insertDesc x acc) []

/-- Embedding of `RAGEngine._rerank_results` (the guard for an empty result set is
subsumed: an empty candidate list maps and sorts to `[]`). -/
def rerankResults (query : String) (candidates : List Candidate) : List RankedChunk :=
  stableSortDesc (candidates.map (toRanked query))

/-- Model `Citation` of `models/api.py` as `_assemble_context` fills it. -/
structure Citation where
  title : String
  category : String
  book : Option String
  file_path : String
  snippet : String
  relevance_score : ℚ
deriving DecidableEq, Repr

/-- Python `round` to an integer: round-half-to-even. -/
def roundHalfEven (y : ℚ) : ℤ :=
  let n := ⌊y⌋
  if y - n < 1 / 2 then n
  else if 1 / 2 < y - n then n + 1
  else if n % 2 = 0 then n else n + 1

/-- Python `round(x, 3)` modelled on rationals. -/
def round3 (x : ℚ) : ℚ := (roundHalfEven (x * 1000) : ℚ) / 1000

/-- Reading `metadata.get('book', '')` followed by the truthiness test of
`_assemble_context`: the source label is `f"{book} - {title}"` when the book
string is non-empty, else the title. -/
def sourceLabel (m : ChunkMeta) : String :=
  let title := m.title.getD "Unknown"
  let book := m.book.getD ""
  if book ≠ "" then book ++ " - " ++ title else title

/-- One block `f"[Source: {label}]\n{text}"` of the assembled context. -/
def contextPart (c : RankedChunk) : String :=
  "[Source: " ++ sourceLabel c.metadata ++ "]\n" ++ c.text

/-- The `Citation` record `_assemble_context` emits for an included chunk. -/
def mkCitation (c : RankedChunk) : Citation :=
  let m := c.metadata
  { title := m.title.getD "Unknown"
    category := m.category.getD "General"
    book := if m.book.getD "" ≠ "" then some (m.book.getD "") else none
    file_path := m.file_path.getD ""
    snippet := if 200 < c.text.data.length then takeStr 200 c.text ++ "..." else c.text
    relevance_score := round3 c.final_score }

/-- The greedy fill loop of `_assemble_context`: returns the chunks actually
appended and the final `total_words`.  The loop breaks — a hard stop — at the
first chunk whose word count would push the running total past `maxWords`. -/
def assembleGo (maxWords : Nat) : List RankedChunk → Nat → List RankedChunk × Nat
  | [], total => ([], total)
  | c :: cs, total =>
    let cw := wordCount c.text
    if maxWords < total + cw then ([], total)
    else
      let r := assembleGo maxWords cs (total + cw)
      (c :: r.1, r.2)

/-- Python `"\n\n---\n\n".join`. -/
def joinSep : List String → String
  | [] => ""
  | [w] => w
  | w :: v :: ws => w ++ "\n\n---\n\n" ++ joinSep (v :: ws)

/-- Embedding of `RAGEngine._assemble_context`: `max_words = int(context_limit * 0.75)`;
returns the formatted context and the parallel citation list. -/
def assembleContext (context_limit : Nat) (chunks : List RankedChunk) :
    String × List Citation :=
  let maxWords := context_limit * 3 / 4
  let included := (assembleGo maxWords chunks 0).1
  (joinSep (included.map contextPart), included.map mkCitation)

/-! ## Tree parser (`backend/app/services/tree_parser.py`)

Python dicts preserve the position of a key's first insertion while
overwriting its value; the three lookup indices of `build_tree` are modelled
as ordered association lists built by that insertion discipline.  The node
mutation of the source (`add_child`, flag assignment) becomes a pure
recursion; the shared `visited` set is threaded as an explicit list throughout
one build pass.  The recursion is driven by a fuel argument; `build_tree`
supplies `|all_notes| + 1`, which bounds the recursion depth of the source
(each level of recursion permanently adds a previously unvisited note id to
`visited`, and ids come from the indexed note set). -/

/-- Python `d[k] = v` on an insertion-ordered association list: overwrite in place,
or append. -/
def pyDictInsert (k : String) (v : Note) : List (String × Note) → List (String × Note)
  | [] => [(k, v)]
  | (k', v') :: d => if k' = k then (k, v) :: d else (k', v') :: pyDictInsert k v d

/-- Python `{key(n): n for n in notes}`. -/
def pyDict (key : Note → String) (notes : List Note) : List (String × Note) :=
  notes.foldl (fun d n => pyDictInsert (key n) n d) []

/-- Python `k in d` / `d[k]` combined. -/
def pyDictGet (d : List (String × Note)) (k : String) : Option Note :=
  (d.find? (fun kv => kv.1 = k)).map Prod.snd

/-- The three indices `notes_by_id`, `notes_by_title`, `notes_by_filepath`
built at the start of `build_tree`. -/
structure NoteIndex where
  byId : List (String × Note)
  byTitle : List (String × Note)
  byFilepath : List (String × Note)
deriving Repr

/-- Index construction of `TreeParser.build_tree`. -/
def mkIndex (notes : List Note) : NoteIndex :=
  { byId := pyDict (fun n => n.id) notes
    byTitle := pyDict (fun n => n.title) notes
    byFilepath := pyDict (fun n => n.file_path) notes }

/-- Embedding of `TreeParser.find_note_by_link_text`: the four-strategy fallback chain. -/
def findNoteByLinkText (idx : NoteIndex) (linkText category : String) : Option Note :=
  let clean := pyStrip linkText
  let lower := toLowerStr clean
  match pyDictGet idx.byTitle clean with
  | some n => some n
  | none =>
    match (idx.byId.map Prod.snd).find?
        (fun n => n.category = category && toLowerStr n.title = lower) with
    | some n => some n
    | none =>
      match (idx.byId.map Prod.snd).find?
          (fun n => n.category = category && containsStr (toLowerStr n.title) lower) with
      | some n => some n
      | none =>
        (idx.byFilepath.find?
          (fun kv => toLowerStr (pathStem kv.1) = lower && kv.2.category = category)).map
          Prod.snd

/-- Model `TreeNode` of `tree_parser.py`.  The mutable `parent` back-pointer is
not stored: in the built tree it always designates the unique structural
parent, recoverable from the root-to-node path. -/
inductive TreeNode where
  | mk (note : Note) (isRoot : Bool) (isLeaf : Bool) (depth : Nat)
       (children : List TreeNode) (wikiLinks : List String)

/-- The wrapped note. -/
def TreeNode.note : TreeNode → Note
  | .mk n _ _ _ _ _ => n

/-- The `is_root` flag. -/
def TreeNode.isRoot : TreeNode → Bool
  | .mk _ r _ _ _ _ => r

/-- The `is_leaf` flag. -/
def TreeNode.isLeaf : TreeNode → Bool
  | .mk _ _ l _ _ _ => l

/-- The `depth` field. -/
def TreeNode.depth : TreeNode → Nat
  | .mk _ _ _ d _ _ => d

/-- The `children` list. -/
def TreeNode.children : TreeNode → List TreeNode
  | .mk _ _ _ _ cs _ => cs

/-- The `wiki_links` field. -/
def TreeNode.wikiLinks : TreeNode → List String
  | .mk _ _ _ _ _ w => w

/-- One iteration of the link loop inside `_build_tree_recursive`: resolve
the link, skip unresolved targets and already-visited ids, otherwise mark
visited, build the child subtree through `recur` and append it.  `acc` is
`(children built so far, visited)`. -/
def buildStep (recur : Note → List String → TreeNode × List String)
    (idx : NoteIndex) (category : String)
    (acc : List TreeNode × List String) (link : String) : List TreeNode × List String :=
  match findNoteByLinkText idx link category with
  | none => acc
  | some cn =>
    if cn.id ∈ acc.2 then acc
    else
      let r := recur cn (cn.id :: acc.2)
      (acc.1 ++ [r.1], r.2)

/-- Embedding of `TreeParser._build_tree_recursive`, fuel-indexed: builds the node for
`note` at `depth` (the flag assignments of the source fold into the
constructed node: `is_leaf` is set exactly when the extracted link list is
empty) and returns it with the updated `visited`. -/
def buildRec (idx : NoteIndex) (category : String) :
    Nat → Note → Bool → Nat → List String → TreeNode × List String
  | 0, note, isRoot, depth, visited =>
    let links := extractWikiLinks note.content
    (.mk note isRoot links.isEmpty depth [] links, visited)
  | fuel + 1, note, isRoot, depth, visited =>
    let links := extractWikiLinks note.content
    if links.isEmpty then (.mk note isRoot true depth [] links, visited)
    else
      let r := links.foldl
        (buildStep (fun cn v => buildRec idx category fuel cn false (depth + 1) v)
          idx category)
        ([], visited)
      (.mk note isRoot false depth r.1 links, r.2)

/-- Embedding of `TreeParser.build_tree`: index the corpus, seed `visited` with the root
id, recurse. -/
def buildTree (rootNote : Note) (allNotes : List Note) : TreeNode :=
  (buildRec (mkIndex allNotes) rootNote.category (allNotes.length + 1)
    rootNote true 0 [rootNote.id]).1

mutual

/-- All nodes of a tree in preorder. -/
def allNodes : TreeNode → List TreeNode
  | .mk n r l d cs w => .mk n r l d cs w :: allNodesList cs

/-- All nodes of a forest in preorder. -/
def allNodesList : List TreeNode → List TreeNode
  | [] => []
  | t :: ts => allNodes t ++ allNodesList ts

end

/-- The document identities of all nodes of a tree. -/
def allIds (t : TreeNode) : List String := (allNodes t).map (fun nd => nd.note.id)

/-- The document identities of all nodes of a forest. -/
def idsList (cs : List TreeNode) : List String :=
  (allNodesList cs).map (fun nd => nd.note.id)

mutual

/-- Every root-to-leaf path of a tree (a structural leaf is a node with no
children). -/
def rootPaths : TreeNode → List (List TreeNode)
  | .mk n r l d cs w =>
    if cs.isEmpty then [[.mk n r l d cs w]]
    else (rootPathsList cs).map (fun p => .mk n r l d cs w :: p)

/-- The root-to-leaf paths of every tree of a forest. -/
def rootPathsList : List TreeNode → List (List TreeNode)
  | [] => []
  | t :: ts => rootPaths t ++ rootPathsList ts

end

/-- The identity sequences along each root-to-leaf path. -/
def pathIdLists (t : TreeNode) : List (List String) :=
  (rootPaths t).map (fun p => p.map (fun nd => nd.note.id))

/-- Every (parent depth, child depth) pair over the edges of a tree. -/
def depthPairs (t : TreeNode) : List (Nat × Nat) :=
  (allNodes t).flatMap (fun nd => nd.children.map (fun c => (nd.depth, c.depth)))

mutual

/-- Embedding of `TreeParser._find_node_in_tree` (preorder, first match), returning the
root-to-node path instead of the bare node: its last element is the node the
source returns, and the preceding elements are exactly its chain of `parent`
pointers. -/
def findPath (noteId : String) : TreeNode → Option (List TreeNode)
  | .mk n r l d cs w =>
    if n.id = noteId then some [.mk n r l d cs w]
    else (findPathList noteId cs).map (fun p => .mk n r l d cs w :: p)

/-- Embedding of `_find_node_in_tree` over the children, in order. -/
def findPathList (noteId : String) : List TreeNode → Option (List TreeNode)
  | [] => none
  | c :: cs =>
    match findPath noteId c with
    | some p => some p
    | none => findPathList noteId cs

end

/-- Whether `p` is a chain of child edges in the tree starting at its first element. -/
def PathFrom : TreeNode → List TreeNode → Prop
  | _, [] => False
  | t, [x] => x = t
  | t, x :: y :: r => x = t ∧ y ∈ t.children ∧ PathFrom y (y :: r)

/-- A value of the navigation-context dictionary returned by
`get_navigation_context`. -/
inductive NavVal where
  | crumbList (l : List (String × String))
  | crumbOne (c : Option (String × String))
  | flagB (b : Bool)
  | num (n : Nat)
deriving DecidableEq, Repr

/-- The `{"title": ..., "file_path": ...}` record built for breadcrumbs,
siblings, children and parent entries. -/
def crumbOf (t : TreeNode) : String × String := (t.note.title, t.note.file_path)

/-- Embedding of `TreeParser.get_navigation_context`, as the key/value list of the
returned dictionary in insertion order.  The not-found branch of the source
returns only the four keys it mentions; the found branch walks the `parent`
chain for breadcrumbs — here the root-to-node path, read off `findPath`. -/
def getNavigationContext (note : Note) (tree : TreeNode) : List (String × NavVal) :=
  match findPath note.id tree with
  | none =>
    [("breadcrumbs", .crumbList []), ("siblings", .crumbList []),
     ("children", .crumbList []), ("parent", .crumbOne none)]
  | some p =>
    let node := p.getLastD tree
    let parentNode : Option TreeNode := p.dropLast.getLast?
    let breadcrumbs := p.map crumbOf
    let siblings :=
      match parentNode with
      | none => []
      | some pa => (pa.children.filter (fun c => c.note.id ≠ note.id)).map crumbOf
    [("breadcrumbs", .crumbList breadcrumbs),
     ("siblings", .crumbList siblings),
     ("children", .crumbList (node.children.map crumbOf)),
     ("parent", .crumbOne (parentNode.map crumbOf)),
     ("is_leaf", .flagB node.isLeaf),
     ("depth", .num node.depth)]

/-! ## Basic lemmas about the string primitives -/

theorem strMk_data (l : List Char) : (⟨l⟩ : String).data = l := rfl

theorem strMk_length (l : List Char) : (⟨l⟩ : String).length = l.length := rfl

theorem pyStripChars_of_all_space (cs : List Char) (h : cs.all isPySpace = true) :
    pyStripChars cs = [] := by
  unfold pyStripChars
  have h1 : cs.dropWhile isPySpace = [] := by
    rw [List.dropWhile_eq_nil_iff]
    intro x hx
    exact (List.all_eq_true.mp h) x hx
  simp [h1]

theorem leadsWith_map_toLower (p s : List Char) (h : leadsWith p s = true) :
    leadsWith (p.map Char.toLower) (s.map Char.toLower) = true := by
  induction p generalizing s with
  | nil => simp [leadsWith]
  | cons c cs ih =>
    cases s with
    | nil => simp [leadsWith] at h
    | cons d ds =>
      simp only [leadsWith, Bool.and_eq_true, decide_eq_true_eq] at h
      simp only [List.map_cons, leadsWith, Bool.and_eq_true, decide_eq_true_eq]
      exact ⟨by rw [h.1], ih ds h.2⟩

/-! ## C3 — chunking of empty / whitespace-only content -/

/-- C3 (amended): for every document whose content is empty or consists only
of whitespace, `chunk_note` returns exactly one chunk, whose text is the
empty string — not zero chunks. -/
theorem c3_chunkNote_whitespace (svc : ChunkingService) (note : Note)
    (h : note.content.data.all isPySpace = true) :
    (chunkNote svc note).map Chunk.text = [""] ∧ (chunkNote svc note).length = 1 := by
  have hstrip : pyStrip note.content = "" := by
    unfold pyStrip
    rw [pyStripChars_of_all_space _ h]
  have hwc : wordCount "" = 0 := rfl
  unfold chunkNote
  simp only [hstrip, hwc]
  rw [if_pos (Nat.zero_le _)]
  exact ⟨rfl, rfl⟩

def c3Note : Note := ⟨"n1", "T", " \n  ", "Cat", none, "Cat/T.md", [], 0⟩

/-- C3, counterexample to the claim as stated: on a whitespace-only document
the chunker returns a non-empty list (one chunk with empty text), not zero
chunks. -/
theorem c3_counterexample :
    chunkNote ⟨800, 150, 100⟩ c3Note ≠ [] ∧
    (chunkNote ⟨800, 150, 100⟩ c3Note).map Chunk.text = [""] := by
  constructor
  · intro h
    have : (chunkNote ⟨800, 150, 100⟩ c3Note).length = 0 := by rw [h]; rfl
    revert this; decide
  · decide

/-- C3, witness: the amended theorem applied to the concrete whitespace-only
document. -/
theorem c3_witness :
    c3Note.content.data.all isPySpace = true ∧
    (chunkNote ⟨800, 150, 100⟩ c3Note).map Chunk.text = [""] :=
  ⟨by decide, (c3_chunkNote_whitespace ⟨800, 150, 100⟩ c3Note (by decide)).1⟩

/-! ## C6 — root-note detection -/

/-- C6 (amended): `is_root_note` holds exactly when the storage filename
begins with one of the two literal prefixes `"Notes - "` or `"notes - "`
(only those two capitalisations); consequently every root's lowercased
filename begins with `"notes - "`, but other capitalisations of the prefix,
such as `"NOTES - "`, are not roots. -/
theorem c6_isRootNote (note : Note) :
    (isRootNote note = true ↔
      (startsWithStr (pathName note.file_path) "Notes - " = true ∨
       startsWithStr (pathName note.file_path) "notes - " = true)) ∧
    (isRootNote note = true →
      startsWithStr (toLowerStr (pathName note.file_path)) "notes - " = true) := by
  constructor
  · simp [isRootNote]
  · intro h
    rcases Bool.or_eq_true _ _ |>.mp h with h1 | h1
    · have := leadsWith_map_toLower _ _ h1
      simp [startsWithStr, toLowerStr]
      exact this
    · have := leadsWith_map_toLower _ _ h1
      simp [startsWithStr, toLowerStr]
      exact this

def c6Note : Note := ⟨"n", "X", "", "C", none, "C/NOTES - X.md", [], 0⟩

/-- C6, counterexample to the claim as stated: a filename starting with
`"NOTES - "` carries the prefix case-insensitively, yet `is_root_note`
rejects it — the comparison is not case-insensitive. -/
theorem c6_counterexample :
    startsWithStr (toLowerStr (pathName c6Note.file_path)) "notes - " = true ∧
    isRootNote c6Note = false := by
  decide

/-! ## C10 — generated identity length -/

/-- C10: the generated document identity never exceeds 100 characters; when
the raw slug is longer than 100 characters it is replaced by its first 80
characters, an underscore, and the first 8 characters of the hash digest. -/
theorem c10_generateId_length (md5hex : String → String) (category : String)
    (book : Option String) (title : String) :
    (generateId md5hex category book title).length ≤ 100 ∧
    (100 < (rawSlug category book title).length →
      generateId md5hex category book title =
        takeStr 80 (rawSlug category book title) ++ "_" ++
          takeStr 8 (md5hex (rawSlug category book title))) := by
  unfold generateId
  by_cases h : 100 < (rawSlug category book title).length
  · rw [if_pos h]
    refine ⟨?_, fun _ => rfl⟩
    have h80 : (takeStr 80 (rawSlug category book title)).length ≤ 80 := by
      unfold takeStr
      rw [strMk_length]
      exact List.length_take_le 80 (rawSlug category book title).data
    have h8 : (takeStr 8 (md5hex (rawSlug category book title))).length ≤ 8 := by
      unfold takeStr
      rw [strMk_length]
      exact List.length_take_le 8 (md5hex (rawSlug category book title)).data
    rw [String.length_append, String.length_append]
    have : ("_" : String).length = 1 := rfl
    omega
  · rw [if_neg h]
    exact ⟨by omega, fun hc => absurd hc h⟩

/-! ## C8 — the overlap pass -/

theorem addOverlapGo_length (ov : Nat) (rest : List String) :
    ∀ prev, (addOverlapGo ov prev rest).length = rest.length := by
  induction rest with
  | nil => intro prev; rfl
  | cons c rest ih =>
    intro prev
    simp only [addOverlapGo, List.length_cons, ih]

theorem addOverlapGo_getD (ov : Nat) (hov : 0 < ov) (rest : List String) :
    ∀ prev j, j < rest.length →
      (addOverlapGo ov prev rest).getD j "" =
        (if ov < (pyWords ((prev :: rest).getD j "")).length then
          joinSpace ((pyWords ((prev :: rest).getD j "")).drop
            ((pyWords ((prev :: rest).getD j "")).length - ov)) ++ " ... " ++ rest.getD j ""
        else rest.getD j "") := by
  induction rest with
  | nil => intro prev j hj; exact absurd hj (by simp)
  | cons c rest ih =>
    intro prev j hj
    match j with
    | 0 =>
      simp only [addOverlapGo, List.getD_cons_zero]
      unfold pyLastSlice
      rw [if_neg (Nat.pos_iff_ne_zero.mp hov)]
    | j + 1 =>
      simp only [addOverlapGo, List.getD_cons_succ]
      exact ih c j (by simpa using hj)

/-- C8 (amended): in the overlap pass over more than one chunk, the first
chunk is unmodified, and every later chunk has the last `overlap_words` words
of the immediately preceding original chunk prepended with a `" ... "`
separator — but only when that preceding chunk has strictly more words than
the overlap size; otherwise the chunk is left unmodified (assuming a positive
configured overlap size). -/
theorem c8_addOverlap (svc : ChunkingService) (chunks : List String)
    (hov : 0 < svc.overlapWords) :
    (addOverlap svc chunks).length = chunks.length ∧
    (addOverlap svc chunks).head? = chunks.head? ∧
    (∀ i, 0 < i → i < chunks.length →
      (addOverlap svc chunks).getD i "" =
        (if svc.overlapWords < (pyWords (chunks.getD (i - 1) "")).length then
          joinSpace ((pyWords (chunks.getD (i - 1) "")).drop
            ((pyWords (chunks.getD (i - 1) "")).length - svc.overlapWords)) ++
            " ... " ++ chunks.getD i ""
        else chunks.getD i "")) := by
  match chunks with
  | [] => exact ⟨rfl, rfl, fun i h1 h2 => absurd h2 (by simp)⟩
  | [c] =>
    refine ⟨rfl, rfl, fun i h1 h2 => ?_⟩
    simp only [List.length_singleton] at h2
    omega
  | c :: d :: rest =>
    refine ⟨?_, rfl, ?_⟩
    · simp only [addOverlap, List.length_cons, addOverlapGo_length]
    · intro i h1 h2
      match i, h1 with
      | i + 1, _ =>
        have hj : i < (d :: rest).length := by
          simp only [List.length_cons] at h2 ⊢; omega
        have := addOverlapGo_getD svc.overlapWords hov (d :: rest) c i hj
        simp only [addOverlap, List.getD_cons_succ, Nat.add_sub_cancel]
        exact this

def c8Svc : ChunkingService := ⟨800, 150, 100⟩

/-- C8, counterexample to the claim as stated: with the default configuration
(overlap size 115 words) and a previous chunk of fewer words than the overlap
size, the second chunk receives no prepended words and no `" ... "`
separator, contradicting the unconditional prepend the claim describes. -/
theorem c8_counterexample :
    addOverlap c8Svc ["alpha", "beta"] = ["alpha", "beta"] ∧
    containsStr (((addOverlap c8Svc ["alpha", "beta"]).getD 1 "")) " ... " = false := by
  decide

/-- C8, witness: the amended theorem at a concrete service (overlap size 2)
and two concrete chunks whose first chunk exceeds the overlap size. -/
theorem c8_witness :
    0 < (⟨800, 3, 100⟩ : ChunkingService).overlapWords ∧
    (∀ i, 0 < i → i < (["a b c d", "e f"] : List String).length →
      (addOverlap ⟨800, 3, 100⟩ ["a b c d", "e f"]).getD i "" =
        (if (⟨800, 3, 100⟩ : ChunkingService).overlapWords <
            (pyWords ((["a b c d", "e f"] : List String).getD (i - 1) "")).length then
          joinSpace ((pyWords ((["a b c d", "e f"] : List String).getD (i - 1) "")).drop
            ((pyWords ((["a b c d", "e f"] : List String).getD (i - 1) "")).length -
              (⟨800, 3, 100⟩ : ChunkingService).overlapWords)) ++
            " ... " ++ (["a b c d", "e f"] : List String).getD i ""
        else (["a b c d", "e f"] : List String).getD i "")) :=
  ⟨by decide, (c8_addOverlap ⟨800, 3, 100⟩ ["a b c d", "e f"] (by decide)).2.2⟩

/-! ## C5 — reference extraction -/

/-- The declarative reading of "duplicates removed preserving
first-occurrence order": keep an occurrence exactly when the same string does
not occur at any earlier position. -/
def keepFirsts (l : List String) : List String :=
  (l.enum.filter (fun p => !((l.take p.1).contains p.2))).map Prod.snd

theorem enumFrom_succ_eq_map {α : Type} (l : List α) : ∀ n : Nat,
    List.enumFrom (n + 1) l = (List.enumFrom n l).map (Prod.map (fun i => i + 1) id) := by
  induction l with
  | nil => intro n; rfl
  | cons a l ih =>
    intro n
    rw [List.enumFrom_cons, List.enumFrom_cons, List.map_cons, ih (n + 1)]
    rfl

theorem enumFrom_one_eq_map {α : Type} (l : List α) :
    List.enumFrom 1 l = l.enum.map (Prod.map (fun i => i + 1) id) :=
  enumFrom_succ_eq_map l 0

theorem dedupFirstAux_eq_filter (l : List String) : ∀ seen,
    dedupFirstAux seen l =
      (l.enum.filter (fun p => !(seen.contains p.2) && !((l.take p.1).contains p.2))).map
        Prod.snd := by
  induction l with
  | nil => intro seen; rfl
  | cons x xs ih =>
    intro seen
    rw [List.enum_cons, enumFrom_one_eq_map]
    rw [List.filter_cons]
    have hcond0 : (!(seen.contains x) && !(((x :: xs).take 0).contains x)) = !(seen.contains x) := by
      simp
    rw [hcond0]
    have hmapped :
        ((xs.enum.map (Prod.map (· + 1) id)).filter
            (fun p => !(seen.contains p.2) && !(((x :: xs).take p.1).contains p.2))).map
          Prod.snd =
        (xs.enum.filter
            (fun p => !((x :: seen).contains p.2) && !((xs.take p.1).contains p.2))).map
          Prod.snd := by
      rw [List.filter_map]
      rw [List.map_map]
      have hpred : ∀ p ∈ xs.enum,
          ((fun p => !(seen.contains p.2) && !(((x :: xs).take p.1).contains p.2)) ∘
            Prod.map (· + 1) id) p =
          (fun p => !((x :: seen).contains p.2) && !((xs.take p.1).contains p.2)) p := by
        intro p _
        simp only [Function.comp, Prod.map, id]
        rw [List.take_succ_cons]
        simp only [List.contains_cons]
        cases hsx : seen.contains p.2 <;> cases hxx : p.2 == x <;>
          cases htk : (xs.take p.1).contains p.2 <;> simp [hsx, hxx, htk]
      rw [List.filter_congr hpred]
      have hsnd : ∀ p ∈ xs.enum.filter
          (fun p => !((x :: seen).contains p.2) && !((xs.take p.1).contains p.2)),
          (Prod.snd ∘ Prod.map (fun x => x + 1) id) p = Prod.snd p := by
        intro p _
        cases p; rfl
      exact List.map_congr_left hsnd
    have hpred2 : ∀ p ∈ xs.enum, x ∈ seen →
        ((fun p => !((x :: seen).contains p.2) && !((xs.take p.1).contains p.2)) p =
          (fun p => !(seen.contains p.2) && !((xs.take p.1).contains p.2)) p) := by
      intro p _ hx
      by_cases hpx : p.2 = x
      · simp [List.contains_cons, hpx, hx]
      · simp [List.contains_cons, hpx]
    by_cases hx : x ∈ seen
    · have hct : seen.contains x = true := List.elem_eq_true_of_mem hx
      rw [dedupFirstAux, if_pos hx]
      simp only [hct, Bool.not_true, Bool.false_eq_true, if_false]
      rw [hmapped]
      rw [List.filter_congr (fun p hp => hpred2 p hp hx)]
      exact ih seen
    · have hcf : seen.contains x = false := by
        cases hc : seen.contains x
        · rfl
        · exact absurd (List.mem_of_elem_eq_true hc) hx
      rw [dedupFirstAux, if_neg hx]
      simp only [hcf, Bool.not_false, if_true]
      rw [List.map_cons, hmapped, ← ih (x :: seen)]

theorem mem_dedupFirstAux (l : List String) :
    ∀ seen x, x ∈ dedupFirstAux seen l → x ∈ l ∧ x ∉ seen := by
  induction l with
  | nil => intro seen x hx; exact absurd hx (by simp [dedupFirstAux])
  | cons y ys ih =>
    intro seen x hx
    rw [dedupFirstAux] at hx
    by_cases hy : y ∈ seen
    · rw [if_pos hy] at hx
      obtain ⟨h1, h2⟩ := ih seen x hx
      exact ⟨List.mem_cons_of_mem _ h1, h2⟩
    · rw [if_neg hy] at hx
      rcases List.mem_cons.mp hx with h | h
      · exact ⟨h ▸ List.mem_cons_self _ _, h ▸ hy⟩
      · obtain ⟨h1, h2⟩ := ih (y :: seen) x h
        exact ⟨List.mem_cons_of_mem _ h1, fun hc => h2 (List.mem_cons_of_mem _ hc)⟩

theorem dedupFirstAux_nodup (l : List String) : ∀ seen, (dedupFirstAux seen l).Nodup := by
  induction l with
  | nil => intro seen; simp [dedupFirstAux]
  | cons y ys ih =>
    intro seen
    rw [dedupFirstAux]
    by_cases hy : y ∈ seen
    · rw [if_pos hy]; exact ih seen
    · rw [if_neg hy]
      refine List.nodup_cons.mpr ⟨?_, ih (y :: seen)⟩
      intro hc
      exact (mem_dedupFirstAux ys (y :: seen) y hc).2 (List.mem_cons_self _ _)

theorem scanPipeStep_clean (recur : List Char → List (List Char))
    (hrec : ∀ cs m, m ∈ recur cs → ∀ c ∈ m, c ≠ ']' ∧ c ≠ '|') :
    ∀ cs m, m ∈ scanPipeStep recur cs → ∀ c ∈ m, c ≠ ']' ∧ c ≠ '|' := by
  intro cs m hm
  rw [scanPipeStep.eq_def] at hm
  repeat' split at hm
  all_goals
    first
      | (rcases List.mem_cons.mp hm with h | h
         · intro c hc
           have hc2 := List.mem_takeWhile_imp (h ▸ hc)
           simp only [Bool.and_eq_true, decide_eq_true_eq] at hc2
           exact hc2
         · exact hrec _ m h)
      | exact hrec _ m hm
      | exact absurd hm (List.not_mem_nil m)

theorem scanPipeGo_clean (fuel : Nat) : ∀ cs m, m ∈ scanPipeGo fuel cs →
    (∀ c ∈ m, c ≠ ']' ∧ c ≠ '|') := by
  induction fuel with
  | zero => intro cs m hm; exact absurd hm (by simp [scanPipeGo])
  | succ fuel ih =>
    intro cs m hm
    exact scanPipeStep_clean (scanPipeGo fuel) ih cs m hm

/-- C5 (amended): `ObsidianParser._extract_links` keeps exactly the raw
pattern matches with duplicates removed preserving first-occurrence order,
its output has no duplicates, and each returned reference is a raw `Text`
capture, free of `]` and of any `|Display` part.  (The companion function
`TreeParser.extract_wiki_links` does not satisfy the claim: it keeps the
`|Display` part and duplicates — see the counterexample.) -/
theorem c5_extractLinks (content : String) :
    extractLinks content = keepFirsts (rawLinks content) ∧
    (extractLinks content).Nodup ∧
    (∀ s ∈ extractLinks content,
      s ∈ rawLinks content ∧ ('|' : Char) ∉ s.data ∧ (']' : Char) ∉ s.data) := by
  refine ⟨?_, dedupFirstAux_nodup _ [], ?_⟩
  · unfold extractLinks keepFirsts
    rw [dedupFirstAux_eq_filter (rawLinks content) []]
    have : ∀ p ∈ (rawLinks content).enum,
        (fun p => !(([] : List String).contains p.2) &&
          !(((rawLinks content).take p.1).contains p.2)) p =
        (fun p => !(((rawLinks content).take p.1).contains p.2)) p := by
      intro p _; simp
    rw [List.filter_congr this]
  · intro s hs
    have hmem := mem_dedupFirstAux (rawLinks content) [] s hs
    refine ⟨hmem.1, ?_, ?_⟩
    · obtain ⟨m, hm, rfl⟩ := List.mem_map.mp hmem.1
      intro hc
      exact ((scanPipeGo_clean _ _ m hm) '|' hc).2 rfl
    · obtain ⟨m, hm, rfl⟩ := List.mem_map.mp hmem.1
      intro hc
      exact ((scanPipeGo_clean _ _ m hm) ']' hc).1 rfl

/-- C5, counterexample to the claim as stated: `TreeParser.extract_wiki_links`
returns the full inner text of `[[A|B]]` (the `|Display` part is not dropped)
and keeps duplicates, where the claim demands `["A"]`. -/
theorem c5_counterexample :
    extractWikiLinks "[[A|B]] [[A|B]]" = ["A|B", "A|B"] ∧
    extractWikiLinks "[[A|B]] [[A|B]]" ≠ ["A"] ∧
    extractLinks "[[A|B]] [[A|B]]" = ["A"] := by
  refine ⟨by decide, ?_, by decide⟩
  intro h
  have hb : extractWikiLinks "[[A|B]] [[A|B]]" = ["A|B", "A|B"] := by decide
  have h2 : (["A|B", "A|B"] : List String) = ["A"] := by rw [← hb, h]
  exact absurd h2 (by decide)

/-! ## C1 — the greedy context-budget fill -/

theorem assembleGo_spec (m : Nat) (chunks : List RankedChunk) : ∀ total,
    (assembleGo m chunks total).1 = chunks.take (assembleGo m chunks total).1.length ∧
    (assembleGo m chunks total).2 =
      total + ((assembleGo m chunks total).1.map (fun c => wordCount c.text)).sum ∧
    (total ≤ m → (assembleGo m chunks total).2 ≤ m) ∧
    (∀ c cs', chunks.drop (assembleGo m chunks total).1.length = c :: cs' →
      m < (assembleGo m chunks total).2 + wordCount c.text) := by
  induction chunks with
  | nil =>
    intro total
    refine ⟨rfl, by simp [assembleGo], fun h => h, fun c cs' hc => ?_⟩
    exact absurd hc (by simp [assembleGo])
  | cons d ds ih =>
    intro total
    by_cases hstop : m < total + wordCount d.text
    · have hgo : assembleGo m (d :: ds) total = ([], total) := by
        rw [assembleGo, if_pos hstop]
      refine ⟨by rw [hgo]; rfl, by simp [hgo], fun h => by rw [hgo]; exact h,
        fun c cs' hc => ?_⟩
      rw [hgo] at hc ⊢
      simp only [List.length_nil, List.drop_zero] at hc
      cases hc
      exact hstop
    · have hgo : assembleGo m (d :: ds) total =
          (d :: (assembleGo m ds (total + wordCount d.text)).1,
           (assembleGo m ds (total + wordCount d.text)).2) := by
        rw [assembleGo, if_neg hstop]
      obtain ⟨ih1, ih2, ih3, ih4⟩ := ih (total + wordCount d.text)
      refine ⟨?_, ?_, ?_, ?_⟩
      · rw [hgo]
        simp only [List.length_cons, List.take_succ_cons]
        exact congrArg (d :: ·) ih1
      · rw [hgo]
        simp only [List.map_cons, List.sum_cons]
        omega
      · intro _
        rw [hgo]
        exact ih3 (Nat.not_lt.mp hstop)
      · intro c cs' hc
        rw [hgo] at hc ⊢
        simp only [List.length_cons, List.drop_succ_cons] at hc
        exact ih4 c cs' hc

/-- C1: the context assembler iterates the ranked candidates in rank order
(the included chunks are an initial segment), the final word total is the sum
of the included candidates' word counts and never exceeds
`0.75 × context_limit`, and when a candidate is excluded it is the first one
whose word count added to the running total would exceed that threshold
(everything after it is dropped as well). -/
theorem c1_assemble_budget (context_limit : Nat) (chunks : List RankedChunk) :
    (assembleGo (context_limit * 3 / 4) chunks 0).1 =
      chunks.take (assembleGo (context_limit * 3 / 4) chunks 0).1.length ∧
    (assembleGo (context_limit * 3 / 4) chunks 0).2 =
      (((assembleGo (context_limit * 3 / 4) chunks 0).1.map
        (fun c => wordCount c.text)).sum) ∧
    (((assembleGo (context_limit * 3 / 4) chunks 0).2 : ℚ) ≤
      (3 / 4 : ℚ) * context_limit) ∧
    (∀ c cs',
      chunks.drop (assembleGo (context_limit * 3 / 4) chunks 0).1.length = c :: cs' →
      ((3 / 4 : ℚ) * context_limit <
        ((assembleGo (context_limit * 3 / 4) chunks 0).2 + wordCount c.text : ℚ))) := by
  obtain ⟨h1, h2, h3, h4⟩ := assembleGo_spec (context_limit * 3 / 4) chunks 0
  have hnat : (assembleGo (context_limit * 3 / 4) chunks 0).2 ≤ context_limit * 3 / 4 :=
    h3 (Nat.zero_le _)
  refine ⟨h1, by simpa using h2, ?_, ?_⟩
  · have h4le : (assembleGo (context_limit * 3 / 4) chunks 0).2 * 4 ≤ context_limit * 3 :=
      (Nat.le_div_iff_mul_le (by norm_num)).mp hnat
    have : ((assembleGo (context_limit * 3 / 4) chunks 0).2 * 4 : ℚ) ≤
        (context_limit * 3 : ℚ) := by exact_mod_cast h4le
    push_cast at this ⊢
    linarith
  · intro c cs' hc
    have hlt := h4 c cs' hc
    have h4lt : context_limit * 3 <
        ((assembleGo (context_limit * 3 / 4) chunks 0).2 + wordCount c.text) * 4 :=
      (Nat.div_lt_iff_lt_mul (by norm_num)).mp hlt
    have : (context_limit * 3 : ℚ) <
        (((assembleGo (context_limit * 3 / 4) chunks 0).2 + wordCount c.text) * 4 : ℚ) := by
      exact_mod_cast h4lt
    push_cast at this ⊢
    linarith

/-! ## C4 — the reranker -/

/-- The claim's score formula:
`0.7 × (1 − distance) + 0.2 × keyword_overlap + min(0.1, 0.01 × link_count)`. -/
def specScore (query text : String) (distance : ℚ) (linkCount : Nat) : ℚ :=
  (7 / 10) * (1 - distance) + (2 / 10) * keywordOverlap query text +
    min ((1 : ℚ) / 10) (((1 : ℚ) / 100) * (linkCount : ℚ))

theorem toRanked_score_ok (query : String) (c : Candidate) (ls : List String)
    (h : c.metadata.links = PyLinks.ok ls) :
    (toRanked query c).final_score = specScore query c.text c.distance ls.length := by
  show (1 - c.distance) * (7 / 10) + keywordOverlap query c.text * (2 / 10) +
      linkBonus c.metadata.links = _
  rw [h]
  show (1 - c.distance) * (7 / 10) + keywordOverlap query c.text * (2 / 10) +
      min ((ls.length : ℚ) * (1 / 100)) (1 / 10) = _
  unfold specScore
  have hmin : min ((ls.length : ℚ) * (1 / 100)) (1 / 10) =
      min (1 / 10) ((1 / 100) * (ls.length : ℚ)) := by
    rw [min_comm, mul_comm]
  rw [hmin]
  ring

theorem mem_insertDesc (x : RankedChunk) (l : List RankedChunk) :
    ∀ a, a ∈ insertDesc x l ↔ a = x ∨ a ∈ l := by
  induction l with
  | nil => intro a; simp [insertDesc]
  | cons y ys ih =>
    intro a
    rw [insertDesc]
    by_cases hlt : y.final_score < x.final_score
    · rw [if_pos hlt]
      simp [List.mem_cons]
    · rw [if_neg hlt]
      simp only [List.mem_cons, ih a]
      tauto

theorem insertDesc_sorted (x : RankedChunk) (l : List RankedChunk)
    (h : List.Pairwise (fun a b => b.final_score ≤ a.final_score) l) :
    List.Pairwise (fun a b => b.final_score ≤ a.final_score) (insertDesc x l) := by
  induction l with
  | nil => exact List.pairwise_singleton _ x
  | cons y ys ih =>
    rw [insertDesc]
    obtain ⟨hy, hys⟩ := List.pairwise_cons.mp h
    by_cases hlt : y.final_score < x.final_score
    · rw [if_pos hlt]
      refine List.pairwise_cons.mpr ⟨?_, h⟩
      intro b hb
      rcases List.mem_cons.mp hb with rfl | hb
      · exact le_of_lt hlt
      · exact le_trans (hy b hb) (le_of_lt hlt)
    · rw [if_neg hlt]
      refine List.pairwise_cons.mpr ⟨?_, ih hys⟩
      intro b hb
      rcases (mem_insertDesc x ys b).mp hb with rfl | hb
      · exact le_of_not_lt hlt
      · exact hy b hb

theorem insertDesc_perm (x : RankedChunk) (l : List RankedChunk) :
    (insertDesc x l).Perm (x :: l) := by
  induction l with
  | nil => exact List.Perm.refl _
  | cons y ys ih =>
    rw [insertDesc]
    by_cases hlt : y.final_score < x.final_score
    · rw [if_pos hlt]
    · rw [if_neg hlt]
      exact (List.Perm.cons y ih).trans (List.Perm.swap x y ys)

theorem filter_insertDesc (x : RankedChunk) (q : ℚ) (l : List RankedChunk)
    (h : List.Pairwise (fun a b => b.final_score ≤ a.final_score) l) :
    (insertDesc x l).filter (fun c => c.final_score == q) =
      if x.final_score = q then
        l.filter (fun c => c.final_score == q) ++ [x]
      else l.filter (fun c => c.final_score == q) := by
  induction l with
  | nil =>
    by_cases hxq : x.final_score = q
    · simp [insertDesc, List.filter_cons, hxq]
    · simp [insertDesc, List.filter_cons, hxq]
  | cons y ys ih =>
    obtain ⟨hy, hys⟩ := List.pairwise_cons.mp h
    rw [insertDesc]
    by_cases hlt : y.final_score < x.final_score
    · rw [if_pos hlt]
      by_cases hxq : x.final_score = q
      · have hfil : (y :: ys).filter (fun c => c.final_score == q) = [] := by
          rw [List.filter_eq_nil_iff]
          intro a ha
          have hle : a.final_score ≤ y.final_score := by
            rcases List.mem_cons.mp ha with rfl | ha
            · exact le_refl _
            · exact hy a ha
          have : a.final_score < q := lt_of_le_of_lt hle (hxq ▸ hlt)
          simp only [beq_iff_eq]
          exact fun hc => absurd (hc ▸ this) (lt_irrefl q)
        rw [if_pos hxq, hfil]
        rw [List.filter_cons, if_pos (by simp [hxq]), hfil]
        rfl
      · rw [if_neg hxq]
        rw [List.filter_cons, if_neg (by simp [hxq])]
    · rw [if_neg hlt]
      rw [List.filter_cons, ih hys]
      by_cases hxq : x.final_score = q <;> by_cases hyq : (y.final_score == q) = true <;>
        simp [hxq, hyq]

theorem sortLoop_inv (l : List RankedChunk) : ∀ acc : List RankedChunk,
    List.Pairwise (fun a b => b.final_score ≤ a.final_score) acc →
    List.Pairwise (fun a b => b.final_score ≤ a.final_score)
      (l.foldl (fun a x => insertDesc x a) acc) ∧
    (∀ q : ℚ, (l.foldl (fun a x => insertDesc x a) acc).filter
        (fun c => c.final_score == q) =
      acc.filter (fun c => c.final_score == q) ++
        l.filter (fun c => c.final_score == q)) ∧
    (l.foldl (fun a x => insertDesc x a) acc).Perm (acc ++ l) := by
  induction l with
  | nil =>
    intro acc hacc
    exact ⟨hacc, fun q => by simp, by simp⟩
  | cons x xs ih =>
    intro acc hacc
    obtain ⟨ihs, ihf, ihp⟩ := ih (insertDesc x acc) (insertDesc_sorted x acc hacc)
    refine ⟨ihs, ?_, ?_⟩
    · intro q
      rw [List.foldl_cons]
      rw [ihf q, filter_insertDesc x q acc hacc, List.filter_cons]
      by_cases hxq : x.final_score = q
      · rw [if_pos hxq, if_pos (by simp [hxq])]
        simp [List.append_assoc]
      · rw [if_neg hxq, if_neg (by simp [hxq])]
    · rw [List.foldl_cons]
      refine ihp.trans ?_
      refine (List.Perm.append_right xs (insertDesc_perm x acc)).trans ?_
      exact (List.perm_middle).symm

/-- C4: every reranked candidate whose stored reference-list metadata is a
well-formed list carries the final score
`0.7 × (1 − distance) + 0.2 × keyword_overlap + min(0.1, 0.01 × link_count)`;
the output is sorted descending by final score, is a permutation of the
scored input, and — stability — for every score value the candidates
attaining it appear in their original input order (first-seen wins). -/
theorem c4_rerank (query : String) (cands : List Candidate) :
    (∀ c ∈ rerankResults query cands, ∀ ls, c.metadata.links = PyLinks.ok ls →
      c.final_score = specScore query c.text c.distance ls.length) ∧
    List.Pairwise (fun a b => b.final_score ≤ a.final_score)
      (rerankResults query cands) ∧
    (rerankResults query cands).Perm (cands.map (toRanked query)) ∧
    (∀ q : ℚ, (rerankResults query cands).filter (fun c => c.final_score == q) =
      (cands.map (toRanked query)).filter (fun c => c.final_score == q)) := by
  obtain ⟨hs, hf, hp⟩ := sortLoop_inv (cands.map (toRanked query)) [] List.Pairwise.nil
  have hr : rerankResults query cands =
      (cands.map (toRanked query)).foldl (fun a x => insertDesc x a) [] := rfl
  have hp' : (rerankResults query cands).Perm (cands.map (toRanked query)) := by
    rw [hr]
    refine hp.trans ?_
    simp
  refine ⟨?_, hs, hp', fun q => by rw [hr, hf q]; simp⟩
  intro c hc ls hls
  have hc2 : c ∈ cands.map (toRanked query) := hp'.mem_iff.mp hc
  obtain ⟨cand, hcand, rfl⟩ := List.mem_map.mp hc2
  exact toRanked_score_ok query cand ls hls

/-! ## C2 / C7 — tree construction invariants -/

theorem allNodes_mk (n : Note) (r l : Bool) (d : Nat) (cs : List TreeNode)
    (w : List String) :
    allNodes (.mk n r l d cs w) = .mk n r l d cs w :: allNodesList cs := rfl

theorem allNodesList_append (l₁ l₂ : List TreeNode) :
    allNodesList (l₁ ++ l₂) = allNodesList l₁ ++ allNodesList l₂ := by
  induction l₁ with
  | nil => rfl
  | cons t ts ih => simp [allNodesList, ih, List.append_assoc]

theorem mem_allNodesList (cs : List TreeNode) (nd : TreeNode) :
    nd ∈ allNodesList cs ↔ ∃ c ∈ cs, nd ∈ allNodes c := by
  induction cs with
  | nil => simp [allNodesList]
  | cons t ts ih =>
    simp only [allNodesList, List.mem_append, ih, List.mem_cons]
    constructor
    · rintro (h | ⟨c, hc, hnd⟩)
      · exact ⟨t, Or.inl rfl, h⟩
      · exact ⟨c, Or.inr hc, hnd⟩
    · rintro ⟨c, rfl | hc, hnd⟩
      · exact Or.inl hnd
      · exact Or.inr ⟨c, hc, hnd⟩

theorem allIds_mk (n : Note) (r l : Bool) (d : Nat) (cs : List TreeNode)
    (w : List String) :
    allIds (.mk n r l d cs w) = n.id :: idsList cs := rfl

theorem idsList_cons (c : TreeNode) (cs : List TreeNode) :
    idsList (c :: cs) = allIds c ++ idsList cs := by
  unfold idsList allIds
  rw [allNodesList, List.map_append]

theorem idsList_append (l₁ l₂ : List TreeNode) :
    idsList (l₁ ++ l₂) = idsList l₁ ++ idsList l₂ := by
  unfold idsList
  rw [allNodesList_append, List.map_append]

theorem self_mem_allNodes (t : TreeNode) : t ∈ allNodes t := by
  match t with
  | .mk n r l d cs w => rw [allNodes_mk]; exact List.mem_cons_self _ _

/-- Every node of a built tree satisfies the depth law on its edges. -/
def DepthOk (t : TreeNode) : Prop :=
  ∀ nd ∈ allNodes t, ∀ c ∈ nd.children, c.depth = nd.depth + 1

/-- Every node of a built tree carries `wiki_links` equal to the links
extracted from its document, and its leaf flag set exactly when that list is
empty. -/
def LeafOk (t : TreeNode) : Prop :=
  ∀ nd ∈ allNodes t,
    nd.isLeaf = (extractWikiLinks nd.note.content).isEmpty ∧
    nd.wikiLinks = extractWikiLinks nd.note.content

/-- Invariant of one `_build_tree_recursive` call: `r` is the built subtree
and the updated visited set, for a `note` already marked visited. -/
structure RecInv (note : Note) (depth : Nat) (visited : List String)
    (r : TreeNode × List String) : Prop where
  vis_mono : visited ⊆ r.2
  ids_vis : allIds r.1 ⊆ r.2
  ids_nodup : (allIds r.1).Nodup
  ids_fresh : ∀ x ∈ allIds r.1, x = note.id ∨ x ∉ visited
  node_note : r.1.note = note
  node_depth : r.1.depth = depth
  depth_ok : DepthOk r.1
  leaf_ok : LeafOk r.1

/-- Invariant of the link loop: `p` is the accumulated children and visited
set, relative to the visited set `visited0` the loop started from. -/
structure ChildInv (depth : Nat) (visited0 : List String)
    (p : List TreeNode × List String) : Prop where
  vis_mono : visited0 ⊆ p.2
  ids_vis : idsList p.1 ⊆ p.2
  ids_nodup : (idsList p.1).Nodup
  ids_fresh : ∀ x ∈ idsList p.1, x ∉ visited0
  child_ok : ∀ c ∈ p.1, c.depth = depth + 1 ∧ DepthOk c ∧ LeafOk c

theorem buildStep_inv (recur : Note → List String → TreeNode × List String)
    (idx : NoteIndex) (category : String) (depth : Nat) (visited0 : List String)
    (hrec : ∀ cn v, cn.id ∈ v → RecInv cn (depth + 1) v (recur cn v))
    (acc : List TreeNode × List String) (link : String)
    (hacc : ChildInv depth visited0 acc) :
    ChildInv depth visited0 (buildStep recur idx category acc link) := by
  unfold buildStep
  split
  · exact hacc
  · rename_i cn hfind
    by_cases hmem : cn.id ∈ acc.2
    · rw [if_pos hmem]; exact hacc
    · rw [if_neg hmem]
      have h := hrec cn (cn.id :: acc.2) (List.mem_cons_self _ _)
      have hsub : acc.2 ⊆ (recur cn (cn.id :: acc.2)).2 :=
        (List.subset_cons_self _ _).trans h.vis_mono
      refine ⟨?_, ?_, ?_, ?_, ?_⟩
      · exact hacc.vis_mono.trans hsub
      · show idsList (acc.1 ++ [(recur cn (cn.id :: acc.2)).1]) ⊆ _
        rw [idsList_append]
        intro x hx
        rcases List.mem_append.mp hx with hx | hx
        · exact hsub (hacc.ids_vis hx)
        · rw [idsList_cons] at hx
          rcases List.mem_append.mp hx with hx | hx
          · exact h.ids_vis hx
          · exact absurd hx (by simp [idsList, allNodesList])
      · show (idsList (acc.1 ++ [(recur cn (cn.id :: acc.2)).1])).Nodup
        rw [idsList_append]
        refine List.Nodup.append hacc.ids_nodup ?_ ?_
        · rw [idsList_cons]
          simp only [idsList, allNodesList, List.map_nil, List.append_nil]
          exact h.ids_nodup
        · intro a ha ha'
          have haacc : a ∈ acc.2 := hacc.ids_vis ha
          rw [idsList_cons] at ha'
          rcases List.mem_append.mp ha' with ha' | ha'
          · rcases h.ids_fresh a ha' with rfl | hnotin
            · exact hmem haacc
            · exact hnotin (List.mem_cons_of_mem _ haacc)
          · exact absurd ha' (by simp [idsList, allNodesList])
      · show ∀ x ∈ idsList (acc.1 ++ [(recur cn (cn.id :: acc.2)).1]), x ∉ visited0
        rw [idsList_append]
        intro x hx
        rcases List.mem_append.mp hx with hx | hx
        · exact hacc.ids_fresh x hx
        · rw [idsList_cons] at hx
          rcases List.mem_append.mp hx with hx | hx
          · rcases h.ids_fresh x hx with rfl | hnotin
            · exact fun hc => hmem (hacc.vis_mono hc)
            · exact fun hc => hnotin (List.mem_cons_of_mem _ (hacc.vis_mono hc))
          · exact absurd hx (by simp [idsList, allNodesList])
      · show ∀ c ∈ acc.1 ++ [(recur cn (cn.id :: acc.2)).1], _
        intro c hc
        rcases List.mem_append.mp hc with hc | hc
        · exact hacc.child_ok c hc
        · rcases List.mem_singleton.mp hc with rfl
          exact ⟨h.node_depth, h.depth_ok, h.leaf_ok⟩

theorem foldl_buildStep_inv (recur : Note → List String → TreeNode × List String)
    (idx : NoteIndex) (category : String) (depth : Nat) (visited0 : List String)
    (hrec : ∀ cn v, cn.id ∈ v → RecInv cn (depth + 1) v (recur cn v)) :
    ∀ (links : List String) (acc : List TreeNode × List String),
      ChildInv depth visited0 acc →
      ChildInv depth visited0 (links.foldl (buildStep recur idx category) acc) := by
  intro links
  induction links with
  | nil => intro acc hacc; exact hacc
  | cons link rest ih =>
    intro acc hacc
    rw [List.foldl_cons]
    exact ih _ (buildStep_inv recur idx category depth visited0 hrec acc link hacc)

theorem buildRec_zero (idx : NoteIndex) (category : String) (note : Note)
    (isRoot : Bool) (depth : Nat) (visited : List String) :
    buildRec idx category 0 note isRoot depth visited =
      (.mk note isRoot (extractWikiLinks note.content).isEmpty depth []
        (extractWikiLinks note.content), visited) := rfl

theorem buildRec_succ (idx : NoteIndex) (category : String) (fuel : Nat) (note : Note)
    (isRoot : Bool) (depth : Nat) (visited : List String) :
    buildRec idx category (fuel + 1) note isRoot depth visited =
      if (extractWikiLinks note.content).isEmpty then
        (.mk note isRoot true depth [] (extractWikiLinks note.content), visited)
      else
        (.mk note isRoot false depth
          ((extractWikiLinks note.content).foldl
            (buildStep (fun cn v => buildRec idx category fuel cn false (depth + 1) v)
              idx category) ([], visited)).1 (extractWikiLinks note.content),
         ((extractWikiLinks note.content).foldl
            (buildStep (fun cn v => buildRec idx category fuel cn false (depth + 1) v)
              idx category) ([], visited)).2) := rfl

theorem leafNode_inv (note : Note) (isRoot leafFlag : Bool) (depth : Nat)
    (visited : List String) (hin : note.id ∈ visited)
    (hleaf : leafFlag = (extractWikiLinks note.content).isEmpty) :
    RecInv note depth visited
      (.mk note isRoot leafFlag depth [] (extractWikiLinks note.content), visited) := by
  have hids : allIds (TreeNode.mk note isRoot leafFlag depth []
      (extractWikiLinks note.content)) = [note.id] := rfl
  refine ⟨fun x hx => hx, ?_, ?_, ?_, rfl, rfl, ?_, ?_⟩
  · intro x hx
    rw [hids] at hx
    rw [List.mem_singleton.mp hx]
    exact hin
  · rw [hids]; exact List.nodup_singleton _
  · intro x hx
    rw [hids] at hx
    exact Or.inl (List.mem_singleton.mp hx)
  · intro nd hnd c hc
    have hnd' : nd = TreeNode.mk note isRoot leafFlag depth []
        (extractWikiLinks note.content) := List.mem_singleton.mp hnd
    rw [hnd'] at hc
    exact absurd hc (List.not_mem_nil c)
  · intro nd hnd
    have hnd' : nd = TreeNode.mk note isRoot leafFlag depth []
        (extractWikiLinks note.content) := List.mem_singleton.mp hnd
    rw [hnd']
    exact ⟨hleaf, rfl⟩

theorem buildRec_inv (idx : NoteIndex) (category : String) : ∀ (fuel : Nat)
    (note : Note) (isRoot : Bool) (depth : Nat) (visited : List String),
    note.id ∈ visited →
    RecInv note depth visited (buildRec idx category fuel note isRoot depth visited) := by
  intro fuel
  induction fuel with
  | zero =>
    intro note isRoot depth visited hin
    rw [buildRec_zero]
    exact leafNode_inv note isRoot _ depth visited hin rfl
  | succ fuel ih =>
    intro note isRoot depth visited hin
    rw [buildRec_succ]
    by_cases hl : (extractWikiLinks note.content).isEmpty
    · rw [if_pos hl]
      exact leafNode_inv note isRoot true depth visited hin hl.symm
    · rw [if_neg hl]
      have hinit : ChildInv depth visited (([] : List TreeNode), visited) := by
        refine ⟨fun x hx => hx, ?_, ?_, ?_, ?_⟩
        · intro x hx; exact absurd hx (List.not_mem_nil x)
        · exact List.nodup_nil
        · intro x hx; exact absurd hx (List.not_mem_nil x)
        · intro c hc; exact absurd hc (List.not_mem_nil c)
      have hC := foldl_buildStep_inv
        (fun cn v => buildRec idx category fuel cn false (depth + 1) v) idx category
        depth visited (fun cn v hcv => ih cn false (depth + 1) v hcv)
        (extractWikiLinks note.content) ([], visited) hinit
      refine ⟨hC.vis_mono, ?_, ?_, ?_, rfl, rfl, ?_, ?_⟩
      · intro x hx
        rw [allIds_mk] at hx
        rcases List.mem_cons.mp hx with rfl | hx
        · exact hC.vis_mono hin
        · exact hC.ids_vis hx
      · rw [allIds_mk]
        exact List.nodup_cons.mpr ⟨fun hc => hC.ids_fresh note.id hc hin, hC.ids_nodup⟩
      · intro x hx
        rw [allIds_mk] at hx
        rcases List.mem_cons.mp hx with rfl | hx
        · exact Or.inl rfl
        · exact Or.inr (hC.ids_fresh x hx)
      · intro nd hnd c hc
        rw [allNodes_mk] at hnd
        rcases List.mem_cons.mp hnd with rfl | hnd
        · exact (hC.child_ok c hc).1
        · obtain ⟨c', hc', hnd'⟩ := (mem_allNodesList _ _).mp hnd
          exact (hC.child_ok c' hc').2.1 nd hnd' c hc
      · intro nd hnd
        rw [allNodes_mk] at hnd
        rcases List.mem_cons.mp hnd with rfl | hnd
        · exact ⟨((Bool.not_eq_true _).mp hl).symm, rfl⟩
        · obtain ⟨c', hc', hnd'⟩ := (mem_allNodesList _ _).mp hnd
          exact (hC.child_ok c' hc').2.2 nd hnd'

theorem buildTree_inv (rootNote : Note) (allNotes : List Note) :
    RecInv rootNote 0 [rootNote.id]
      (buildRec (mkIndex allNotes) rootNote.category (allNotes.length + 1)
        rootNote true 0 [rootNote.id]) :=
  buildRec_inv (mkIndex allNotes) rootNote.category (allNotes.length + 1)
    rootNote true 0 [rootNote.id] (List.mem_cons_self _ _)

theorem paths_sublist_aux : ∀ k : Nat,
    (∀ t : TreeNode, sizeOf t < k → ∀ p ∈ rootPaths t,
      (p.map (fun nd => nd.note.id)).Sublist (allIds t)) ∧
    (∀ cs : List TreeNode, sizeOf cs < k → ∀ p ∈ rootPathsList cs,
      (p.map (fun nd => nd.note.id)).Sublist (idsList cs)) := by
  intro k
  induction k with
  | zero =>
    exact ⟨fun t ht => absurd ht (Nat.not_lt_zero _),
           fun cs hcs => absurd hcs (Nat.not_lt_zero _)⟩
  | succ k ih =>
    constructor
    · intro t ht p hp
      match t with
      | .mk n r l d cs w =>
        rw [rootPaths] at hp
        by_cases hcs : cs.isEmpty
        · rw [if_pos hcs] at hp
          have hp' : p = [TreeNode.mk n r l d cs w] := List.mem_singleton.mp hp
          subst hp'
          have hcs' : cs = [] := List.isEmpty_iff.mp hcs
          subst hcs'
          exact List.Sublist.refl _
        · rw [if_neg hcs] at hp
          obtain ⟨p', hp', rfl⟩ := List.mem_map.mp hp
          have hszcs : sizeOf cs < k := by
            have hs := TreeNode.mk.sizeOf_spec n r l d cs w
            omega
          have hsub := ih.2 cs hszcs p' hp'
          rw [List.map_cons, allIds_mk]
          exact List.Sublist.cons₂ _ hsub
    · intro cs hcs p hp
      match cs with
      | [] => exact absurd hp (List.not_mem_nil p)
      | c :: cs' =>
        rw [rootPathsList] at hp
        rcases List.mem_append.mp hp with h | h
        · have hszc : sizeOf c < k := by
            have hs := List.cons.sizeOf_spec c cs'
            omega
          have hsub := ih.1 c hszc p h
          rw [idsList_cons]
          exact hsub.trans (List.sublist_append_left _ _)
        · have hszcs' : sizeOf cs' < k := by
            have hs := List.cons.sizeOf_spec c cs'
            omega
          have hsub := ih.2 cs' hszcs' p h
          rw [idsList_cons]
          exact hsub.trans (List.sublist_append_right _ _)

theorem rootPaths_sublist (t : TreeNode) (p : List TreeNode) (hp : p ∈ rootPaths t) :
    (p.map (fun nd => nd.note.id)).Sublist (allIds t) :=
  (paths_sublist_aux (sizeOf t + 1)).1 t (Nat.lt_succ_self _) p hp

/-- C2: in every tree built by `build_tree`, the identity sequence along any
root-to-leaf path has no duplicates (acyclicity via the pass-wide visited
set), and along every parent-child edge the child's depth is the parent's
depth plus one. -/
theorem c2_tree_wellformed (rootNote : Note) (allNotes : List Note) :
    (∀ ids ∈ pathIdLists (buildTree rootNote allNotes), ids.Nodup) ∧
    (∀ pr ∈ depthPairs (buildTree rootNote allNotes), pr.2 = pr.1 + 1) := by
  have hInv := buildTree_inv rootNote allNotes
  constructor
  · intro ids hids
    obtain ⟨p, hp, rfl⟩ := List.mem_map.mp hids
    exact hInv.ids_nodup.sublist (rootPaths_sublist _ p hp)
  · intro pr hpr
    obtain ⟨nd, hnd, hpr2⟩ := List.mem_flatMap.mp hpr
    obtain ⟨c, hc, rfl⟩ := List.mem_map.mp hpr2
    exact hInv.depth_ok nd hnd c hc

/-- C2, witness: the acyclicity and depth statements applied to a concrete
two-note corpus with a cyclic link structure. -/
theorem c2_witness :
    (["wa", "wb"] ∈ pathIdLists (buildTree ⟨"wa", "WA", "[[WB]]", "C", none, "C/WA.md", [], 1⟩
        [⟨"wa", "WA", "[[WB]]", "C", none, "C/WA.md", [], 1⟩,
         ⟨"wb", "WB", "[[WA]]", "C", none, "C/WB.md", [], 1⟩])) ∧
    (["wa", "wb"] : List String).Nodup :=
  ⟨by decide,
   (c2_tree_wellformed ⟨"wa", "WA", "[[WB]]", "C", none, "C/WA.md", [], 1⟩
      [⟨"wa", "WA", "[[WB]]", "C", none, "C/WA.md", [], 1⟩,
       ⟨"wb", "WB", "[[WA]]", "C", none, "C/WB.md", [], 1⟩]).1
     ["wa", "wb"] (by decide)⟩

/-- C7 (amended): in every built tree the leaf flag of a node equals the
emptiness of the wiki-link list extracted from its document — so a node whose
extracted links exist but all fail to resolve (or are already visited) has no
children yet is not marked leaf. -/
theorem c7_leaf_flag (rootNote : Note) (allNotes : List Note) :
    (allNodes (buildTree rootNote allNotes)).all
      (fun nd => nd.isLeaf == (extractWikiLinks nd.note.content).isEmpty) = true := by
  rw [List.all_eq_true]
  intro nd hnd
  exact beq_iff_eq.mpr ((buildTree_inv rootNote allNotes).leaf_ok nd hnd).1

def c7Note : Note := ⟨"x", "X", "[[Nonexistent]]", "Cat", none, "Cat/X.md", [], 1⟩

/-- C7, counterexample to the claim as stated: a root whose only reference
resolves to no document ends with zero children but its leaf flag stays
`false`, where the claim requires `true`. -/
theorem c7_counterexample :
    (buildTree c7Note [c7Note]).children.length = 0 ∧
    (buildTree c7Note [c7Note]).isLeaf = false ∧
    extractWikiLinks c7Note.content ≠ [] := by
  refine ⟨by decide, by decide, ?_⟩
  intro h
  have : (extractWikiLinks c7Note.content).length = 0 := by rw [h]; rfl
  revert this
  decide

/-! ## C9 — navigation context -/

theorem findPath_sound_aux (nid : String) : ∀ k : Nat,
    (∀ t : TreeNode, sizeOf t < k → ∀ p, findPath nid t = some p →
      p.head? = some t ∧ PathFrom t p ∧
      ∃ x, p.getLast? = some x ∧ x.note.id = nid) ∧
    (∀ cs : List TreeNode, sizeOf cs < k → ∀ p, findPathList nid cs = some p →
      ∃ c ∈ cs, findPath nid c = some p) := by
  intro k
  induction k with
  | zero =>
    exact ⟨fun t ht => absurd ht (Nat.not_lt_zero _),
           fun cs hcs => absurd hcs (Nat.not_lt_zero _)⟩
  | succ k ih =>
    constructor
    · intro t ht p hp
      match t with
      | .mk n r l d cs w =>
        rw [findPath] at hp
        by_cases hid : n.id = nid
        · rw [if_pos hid] at hp
          have hp' : [TreeNode.mk n r l d cs w] = p := Option.some.inj hp
          subst hp'
          exact ⟨rfl, rfl, TreeNode.mk n r l d cs w, rfl, hid⟩
        · rw [if_neg hid] at hp
          obtain ⟨p', hpl, hfp⟩ := Option.map_eq_some'.mp hp
          subst hfp
          have hszcs : sizeOf cs < k := by
            have hs := TreeNode.mk.sizeOf_spec n r l d cs w
            omega
          obtain ⟨c, hc, hfc⟩ := ih.2 cs hszcs p' hpl
          have hszc : sizeOf c < k := lt_trans (List.sizeOf_lt_of_mem hc) hszcs
          obtain ⟨hhead, hpath, x, hlast, hx⟩ := ih.1 c hszc p' hfc
          match p', hhead with
          | c' :: rr, hhead =>
            have hcc : c' = c := Option.some.inj hhead
            subst hcc
            refine ⟨rfl, ⟨rfl, hc, hpath⟩, x, ?_, hx⟩
            rw [List.getLast?_cons_cons]
            exact hlast
    · intro cs hcs p hp
      match cs with
      | [] => exact absurd hp (by rw [findPathList]; exact Option.noConfusion)
      | c :: cs' =>
        rw [findPathList] at hp
        split at hp
        · rename_i q hq
          exact ⟨c, List.mem_cons_self _ _, by rw [hq, Option.some.inj hp]⟩
        · have hszcs' : sizeOf cs' < k := by
            have hs := List.cons.sizeOf_spec c cs'
            omega
          obtain ⟨c', hc', hfc'⟩ := ih.2 cs' hszcs' p hp
          exact ⟨c', List.mem_cons_of_mem _ hc', hfc'⟩

theorem findPath_sound (nid : String) (t : TreeNode) (p : List TreeNode)
    (hp : findPath nid t = some p) :
    p.head? = some t ∧ PathFrom t p ∧
    ∃ x, p.getLast? = some x ∧ x.note.id = nid :=
  (findPath_sound_aux nid (sizeOf t + 1)).1 t (Nat.lt_succ_self _) p hp

/-- C9 (amended): when the document is found, `get_navigation_context`
returns exactly the six keys breadcrumbs, siblings, children, parent,
is_leaf, depth, and the breadcrumbs value lists title and path along a chain
of child edges from the tree root to the target node inclusive; but when the
document is not in the tree, the returned mapping has only the four keys
breadcrumbs, siblings, children, parent — `is_leaf` and `depth` are absent. -/
theorem c9_navigation (note : Note) (tree : TreeNode) :
    (findPath note.id tree = none →
      (getNavigationContext note tree).map Prod.fst =
        ["breadcrumbs", "siblings", "children", "parent"]) ∧
    (∀ p, findPath note.id tree = some p →
      (getNavigationContext note tree).map Prod.fst =
        ["breadcrumbs", "siblings", "children", "parent", "is_leaf", "depth"] ∧
      List.lookup "breadcrumbs" (getNavigationContext note tree) =
        some (NavVal.crumbList (p.map crumbOf)) ∧
      PathFrom tree p ∧ (p.getLastD tree).note.id = note.id) := by
  constructor
  · intro h
    unfold getNavigationContext
    rw [h]
    rfl
  · intro p hp
    obtain ⟨hhead, hpath, x, hlast, hx⟩ := findPath_sound note.id tree p hp
    unfold getNavigationContext
    rw [hp]
    refine ⟨rfl, rfl, hpath, ?_⟩
    rw [List.getLastD_eq_getLast?, hlast]
    exact hx

def c9Tree : TreeNode := .mk ⟨"y", "Y", "", "Cat", none, "Cat/Y.md", [], 0⟩ true true 0 [] []

def c9Note : Note := ⟨"zz", "Z", "", "Cat", none, "p", [], 0⟩

/-- C9, counterexample to the claim as stated: for a document that is not in
the tree, the returned mapping has only four keys — `is_leaf` and `depth` are
missing, where the claim requires all six keys. -/
theorem c9_counterexample :
    (getNavigationContext c9Note c9Tree).map Prod.fst =
      ["breadcrumbs", "siblings", "children", "parent"] ∧
    "is_leaf" ∉ (getNavigationContext c9Note c9Tree).map Prod.fst ∧
    "depth" ∉ (getNavigationContext c9Note c9Tree).map Prod.fst := by
  decide

def c9WNote : Note := ⟨"y", "Y", "", "Cat", none, "Cat/Y.md", [], 0⟩

def c9WTree : TreeNode := .mk c9WNote true true 0 [] []

/-- C9, witness: the amended theorem applied to a concrete single-node tree
containing the requested document. -/
theorem c9_witness :
    findPath c9WNote.id c9WTree = some [c9WTree] ∧
    ((getNavigationContext c9WNote c9WTree).map Prod.fst =
        ["breadcrumbs", "siblings", "children", "parent", "is_leaf", "depth"] ∧
      List.lookup "breadcrumbs" (getNavigationContext c9WNote c9WTree) =
        some (NavVal.crumbList ([c9WTree].map crumbOf)) ∧
      PathFrom c9WTree [c9WTree] ∧
      ([c9WTree].getLastD c9WTree).note.id = c9WNote.id) :=
  ⟨rfl, (c9_navigation c9WNote c9WTree).2 [c9WTree] rfl⟩

end SpiritualChatbot
